import Mathlib

/-!
# Verification of `subsynchronizer` (subsbatch.py / subsynch.py)

Shallow embedding of the batch subtitle synchronizer:
* `normalize_stem` — filename-stem normalization (subsbatch.py, lines 54-58);
* `baseSim` — `difflib.SequenceMatcher(None, a, b).ratio()` for short strings
  (no junk heuristic applies below 200 characters);
* `best_media_match` — fuzzy matcher with length bias and threshold
  (subsbatch.py, lines 39-52);
* the batch orchestration loop (subsbatch.py, lines 97-131);
* `srt_to_plaintext` — the aeneas fallback's SRT stripper (subsynch.py,
  lines 58-71) and the single-pair output-path rule (subsynch.py, line 110).

Python floats are modelled as exact rationals; filesystem paths as a
parent/stem/suffix record; external processes as oracles supplied in an
environment record.
-/

namespace SubSync

/-! ## Python character primitives -/

/-- Python `str.split()` / `str.strip()` whitespace (ASCII fragment). -/
def pyIsSpace (c : Char) : Bool :=
  c = ' ' || c = '\t' || c = '\n' || c = '\x0d' || c = '\x0b' || c = '\x0c'

/-- Python `str.lower()` on the ASCII range (the only range exercised here). -/
def pyLower (c : Char) : Char :=
  if 65 ≤ c.toNat ∧ c.toNat ≤ 90 then Char.ofNat (c.toNat + 32) else c

/-- The separator characters replaced by spaces in `normalize_stem`
(subsbatch.py, line 56). -/
def sepChars : List Char := ['_', '.', '-', '(', ')', '[', ']']

/-- One character of the `t.replace(ch, " ")` loop: separators become spaces. -/
def replaceSep (c : Char) : Char := if c ∈ sepChars then ' ' else c

/-- Python `str.strip()` on a character list: drop whitespace at both ends. -/
def pyStrip (l : List Char) : List Char :=
  ((l.dropWhile pyIsSpace).reverse.dropWhile pyIsSpace).reverse

/-- Python `str.split()` (no argument): split on whitespace runs, discarding
empty pieces.  The accumulator holds the current word, reversed. -/
def pySplit : List Char → List Char → List (List Char)
  | [], acc => if acc = [] then [] else [acc.reverse]
  | c :: cs, acc =>
    if pyIsSpace c then
      if acc = [] then pySplit cs [] else acc.reverse :: pySplit cs []
    else pySplit cs (c :: acc)

/-- Python `" ".join(words)`. -/
def joinSpace : List (List Char) → List Char
  | [] => []
  | [w] => w
  | w :: ws => w ++ ' ' :: joinSpace ws

/-! ## Filename normalizer (subsbatch.py, lines 54-58)

```python
def normalize_stem(stem: str) -> str:
    t = stem.lower()
    for ch in ["_", ".", "-", "(", ")", "[", "]"]:
        t = t.replace(ch, " ")
    return " ".join(t.split()).strip()
``` -/

/-- Lowercase then replace every separator character by a space: the state of
`t` after the `for ch in [...]` loop.  (Sequential single-character
replacements commute with the pointwise map because no separator is a space.) -/
def prepChar (c : Char) : Char := replaceSep (pyLower c)

def normalize_stem (stem : String) : String :=
  String.mk (pyStrip (joinSpace (pySplit ((stem.data.map prepChar)) [])))

example : normalize_stem "My_Movie.2020[1080p]" = "my movie 2020 1080p" := by decide

/-! ## `difflib.SequenceMatcher` (no junk)

`best_media_match` scores candidates with
`SequenceMatcher(None, s, ms).ratio()`.  With `isjunk=None` and strings
shorter than 200 characters (the autojunk threshold — all inputs exercised
here) the junk machinery is inert: `find_longest_match` returns the first, in
scan order, longest matching block of the window, and `ratio` is `2*M/T`
where `M` sums the block sizes of the recursive block decomposition and `T`
is the total length. -/

/-- Length of the longest common suffix of `a[alo..i]` and `b[blo..j]`
(0 when `a[i] ≠ b[j]` or an index is out of window/bounds): the chain length
`j2len[j]` of `find_longest_match`'s inner dynamic program. -/
def kLen (a b : List Char) (alo blo : Nat) : Nat → Nat → Nat
  | 0, j =>
    if alo = 0 ∧ blo ≤ j ∧ 0 < a.length ∧ j < b.length ∧
       a.getD 0 ' ' = b.getD j ' ' then 1 else 0
  | i + 1, j =>
    if alo ≤ i + 1 ∧ blo ≤ j ∧ i + 1 < a.length ∧ j < b.length ∧
       a.getD (i + 1) ' ' = b.getD j ' ' then
      if i + 1 = alo ∨ j = blo then 1
      else kLen a b alo blo i (j - 1) + 1
    else 0

/-- One scan step of `find_longest_match`: a strictly longer chain ending at
`ij` replaces the running best block. -/
def flmStep (a b : List Char) (alo blo : Nat) (best : Nat × Nat × Nat)
    (ij : Nat × Nat) : Nat × Nat × Nat :=
  let k := kLen a b alo blo ij.1 ij.2
  if best.2.2 < k then (ij.1 + 1 - k, ij.2 + 1 - k, k) else best

/-- `find_longest_match` on the window `[alo,ahi) × [blo,bhi)`: scan ending
positions `i` ascending then `j` ascending, keep the first strictly longer
chain; result is (block start in `a`, block start in `b`, block size). -/
def flm (a b : List Char) (alo ahi blo bhi : Nat) : Nat × Nat × Nat :=
  ((List.range' alo (ahi - alo)).flatMap fun i =>
      (List.range' blo (bhi - blo)).map fun j => (i, j)).foldl
    (flmStep a b alo blo) (alo, blo, 0)

/-- Sum of block sizes of `get_matching_blocks`' recursive decomposition:
find the longest block, recurse on the windows to its left and right.
Fuel-indexed; `matchSum` supplies ample fuel. -/
def matchSumF (a b : List Char) : Nat → Nat → Nat → Nat → Nat → Nat
  | 0, _, _, _, _ => 0
  | fuel + 1, alo, ahi, blo, bhi =>
    let r := flm a b alo ahi blo bhi
    if r.2.2 = 0 then 0
    else
      matchSumF a b fuel alo r.1 blo r.2.1 + r.2.2 +
        matchSumF a b fuel (r.1 + r.2.2) ahi (r.2.1 + r.2.2) bhi

/-- Total number of matched characters reported by `get_matching_blocks`. -/
def matchSum (a b : List Char) : Nat :=
  matchSumF a b (a.length + b.length + 1) 0 a.length 0 b.length

/-- `SequenceMatcher(None, a, b).ratio()` as an exact rational:
`2*M/T`, and `1` when both strings are empty (`_calculate_ratio`). -/
def baseSim (a b : List Char) : ℚ :=
  if a.length + b.length = 0 then 1
  else (2 * matchSum a b : ℚ) / (a.length + b.length : ℚ)

/-- Evaluation form of `baseSim` for nonempty inputs. -/
theorem baseSim_eval (a b : List Char) (h : a.length + b.length ≠ 0) :
    baseSim a b = (2 * matchSum a b : ℚ) / (a.length + b.length : ℚ) := by
  simp [baseSim, h]

example : matchSum "abcd".data "abcd".data = 4 := by decide
example : matchSum "abcd".data "wxyz".data = 0 := by decide
example : matchSum "abcd".data "bcda".data = 3 := by decide
example : baseSim "abcd".data "bcda".data = 3 / 4 := by
  rw [baseSim_eval _ _ (by decide)]
  norm_num [show matchSum "abcd".data "bcda".data = 3 from by decide]

/-! ## Paths

`pathlib.Path` abstracted to what the two scripts use: the parent directory,
the stem, and the final suffix (`name = stem + suffix`). -/

structure MPath where
  parent : String
  stem : String
  suffix : String
deriving DecidableEq

/-- `Path.with_suffix`: same parent, same stem, new final suffix. -/
def with_suffix (p : MPath) (s : String) : MPath := { p with suffix := s }

/-! ## Matcher (subsbatch.py, lines 19-52) -/

/-- subsbatch.py line 21: `OVERWRITE = False`. -/
def OVERWRITE : Bool := false

/-- subsbatch.py line 22: `THRESHOLD = 0.55`. -/
def THRESHOLD : ℚ := 55 / 100

/-- The score computed for one candidate inside `best_media_match`'s loop
(subsbatch.py, lines 45-48): `SequenceMatcher` similarity of the two
normalized stems times the length bias
`1.0 - (abs(len(s) - len(ms)) / max(len(s), len(ms), 1)) * 0.1`. -/
def combinedScore (s ms : String) : ℚ :=
  baseSim s.data ms.data *
    (1 - ((((s.data.length : ℤ) - (ms.data.length : ℤ)).natAbs : ℚ) /
          (max s.data.length (max ms.data.length 1) : ℚ)) * (1 / 10))

/-- Score of a candidate media file against the (already normalized)
subtitle stem `s`: the candidate's stem is normalized on the fly, as in
line 45. -/
def candScore (s : String) (m : MPath) : ℚ :=
  combinedScore s (normalize_stem m.stem)

/-- One iteration of the `for m in media_files` loop (lines 44-51): a
strictly better score replaces the running best. -/
def matchStep (s : String) (acc : Option MPath × ℚ) (m : MPath) :
    Option MPath × ℚ :=
  if acc.2 < candScore s m then (some m, candScore s m) else acc

/-- `best_media_match` (subsbatch.py, lines 39-52): run the loop from
`best = None, best_score = -1.0`; finally
`return best if best and best_score >= THRESHOLD else None` (a `Path` is
always truthy, so the guard is `best is not None`). -/
def best_media_match (for_sub : MPath) (media_files : List MPath) :
    Option MPath :=
  let s := normalize_stem for_sub.stem
  let r := media_files.foldl (matchStep s) (none, -1)
  match r.1 with
  | some m => if THRESHOLD ≤ r.2 then some m else none
  | none => none

/-- The loop's final `best_score` value. -/
def bestScore (for_sub : MPath) (media_files : List MPath) : ℚ :=
  (media_files.foldl (matchStep (normalize_stem for_sub.stem)) (none, -1)).2

/-- Default path used only to state indexed facts. -/
def dfl : MPath := ⟨"", "", ""⟩

/-- Characterization of the matcher's fold: the final score is the running
maximum, and the final best is either the untouched initial accumulator
(when nothing beat it) or the first candidate attaining the maximum. -/
theorem matchFold_spec (s : String) (l : List MPath) (b : Option MPath × ℚ) :
    ((l.foldl (matchStep s) b = b ∧ ∀ m ∈ l, candScore s m ≤ b.2)
      ∨ ∃ i, i < l.length
          ∧ (l.foldl (matchStep s) b).1 = some (l.getD i dfl)
          ∧ (l.foldl (matchStep s) b).2 = candScore s (l.getD i dfl)
          ∧ b.2 < (l.foldl (matchStep s) b).2
          ∧ (∀ j, j < i → candScore s (l.getD j dfl) < (l.foldl (matchStep s) b).2)
          ∧ (∀ j, j < l.length → candScore s (l.getD j dfl) ≤ (l.foldl (matchStep s) b).2)) := by
  induction l generalizing b with
  | nil => exact Or.inl ⟨rfl, by simp⟩
  | cons x t ih =>
    have hstep : List.foldl (matchStep s) b (x :: t)
        = List.foldl (matchStep s) (matchStep s b x) t := rfl
    by_cases hx : b.2 < candScore s x
    · have hbx : matchStep s b x = (some x, candScore s x) := by
        simp [matchStep, hx]
      rcases ih (matchStep s b x) with ⟨heq, hall⟩ | ⟨i, hi, h1, h2, h3, h4, h5⟩
      · refine Or.inr ⟨0, by simp, ?_, ?_, ?_, ?_, ?_⟩
        · rw [hstep, heq, hbx]; simp
        · rw [hstep, heq, hbx]; simp
        · rw [hstep, heq, hbx]; exact hx
        · intro j hj; omega
        · intro j hj
          rw [hstep, heq, hbx]
          rcases j with _ | j
          · simp
          · simp only [List.getD_cons_succ]
            have hjt : j < t.length := by simpa using hj
            have hmem : t.getD j dfl ∈ t := by
              rw [List.getD_eq_getElem t dfl hjt]
              exact List.getElem_mem hjt
            have := hall (t.getD j dfl) hmem
            rw [hbx] at this
            simpa using this
      · refine Or.inr ⟨i + 1, by simpa using hi, ?_, ?_, ?_, ?_, ?_⟩
        · rw [hstep]; simpa using h1
        · rw [hstep]; simpa using h2
        · rw [hstep]
          calc b.2 < (matchStep s b x).2 := by rw [hbx]; exact hx
            _ < _ := h3
        · intro j hj
          rw [hstep]
          rcases j with _ | j
          · simp only [List.getD_cons_zero]
            calc candScore s x = (matchStep s b x).2 := by rw [hbx]
              _ < _ := h3
          · simp only [List.getD_cons_succ]
            exact h4 j (by omega)
        · intro j hj
          rw [hstep]
          rcases j with _ | j
          · simp only [List.getD_cons_zero]
            refine le_of_lt ?_
            calc candScore s x = (matchStep s b x).2 := by rw [hbx]
              _ < _ := h3
          · simp only [List.getD_cons_succ]
            exact h5 j (by simpa using hj)
    · have hbx : matchStep s b x = b := by
        simp [matchStep, hx]
      rcases ih (matchStep s b x) with ⟨heq, hall⟩ | ⟨i, hi, h1, h2, h3, h4, h5⟩
      · refine Or.inl ⟨by rw [hstep, heq, hbx], ?_⟩
        intro m hm
        rcases List.mem_cons.1 hm with rfl | hm
        · exact le_of_not_lt hx
        · have := hall m hm
          rw [hbx] at this
          exact this
      · refine Or.inr ⟨i + 1, by simpa using hi, ?_, ?_, ?_, ?_, ?_⟩
        · rw [hstep]; simpa using h1
        · rw [hstep]; simpa using h2
        · rw [hstep, hbx]; rw [hbx] at h3; exact h3
        · intro j hj
          rw [hstep]
          rcases j with _ | j
          · simp only [List.getD_cons_zero]
            calc candScore s x ≤ b.2 := le_of_not_lt hx
              _ = (matchStep s b x).2 := by rw [hbx]
              _ < _ := h3
          · simp only [List.getD_cons_succ]
            exact h4 j (by omega)
        · intro j hj
          rw [hstep]
          rcases j with _ | j
          · simp only [List.getD_cons_zero]
            refine le_of_lt ?_
            calc candScore s x ≤ b.2 := le_of_not_lt hx
              _ = (matchStep s b x).2 := by rw [hbx]
              _ < _ := h3
          · simp only [List.getD_cons_succ]
            exact h5 j (by simpa using hj)

/-! ### Score bounds -/

theorem baseSim_nonneg (a b : List Char) : 0 ≤ baseSim a b := by
  rw [baseSim]
  split
  · norm_num
  · positivity

/-- The length bias `1 - (|len s - len ms| / max(len s, len ms, 1)) * 0.1`
is at least `9/10`. -/
theorem length_bias_ge (s ms : String) :
    (9 : ℚ) / 10
      ≤ 1 - ((((s.data.length : ℤ) - (ms.data.length : ℤ)).natAbs : ℚ) /
          (max s.data.length (max ms.data.length 1) : ℚ)) * (1 / 10) := by
  have hd : ((s.data.length : ℤ) - (ms.data.length : ℤ)).natAbs
      ≤ max s.data.length (max ms.data.length 1) := by
    have h1 := Nat.le_max_left s.data.length (max ms.data.length 1)
    have h2 := Nat.le_max_right ms.data.length 1
    have h3 := Nat.le_max_right s.data.length (max ms.data.length 1)
    omega
  have hmx : (1 : ℚ) ≤ (max s.data.length (max ms.data.length 1) : ℚ) := by
    exact_mod_cast le_max_of_le_right (le_max_right ms.data.length 1)
  have hq1 : ((((s.data.length : ℤ) - (ms.data.length : ℤ)).natAbs : ℚ) /
      (max s.data.length (max ms.data.length 1) : ℚ)) ≤ 1 := by
    rw [div_le_one (by linarith)]
    exact_mod_cast hd
  linarith

theorem combinedScore_nonneg (s ms : String) : 0 ≤ combinedScore s ms := by
  rw [combinedScore]
  have h1 := baseSim_nonneg s.data ms.data
  have h2 := length_bias_ge s ms
  nlinarith

theorem candScore_nonneg (s : String) (m : MPath) : 0 ≤ candScore s m :=
  combinedScore_nonneg _ _

/-- For a nonempty candidate list, the loop ends on the first candidate
attaining the maximal combined score. -/
theorem matchFold_first_argmax (s : String) (l : List MPath) (hl : l ≠ []) :
    ∃ i, i < l.length
      ∧ (l.foldl (matchStep s) (none, -1)).1 = some (l.getD i dfl)
      ∧ (l.foldl (matchStep s) (none, -1)).2 = candScore s (l.getD i dfl)
      ∧ (∀ j, j < i → candScore s (l.getD j dfl) < candScore s (l.getD i dfl))
      ∧ (∀ j, j < l.length → candScore s (l.getD j dfl) ≤ candScore s (l.getD i dfl)) := by
  rcases matchFold_spec s l (none, -1) with ⟨heq, hall⟩ | ⟨i, hi, h1, h2, h3, h4, h5⟩
  · rcases l with _ | ⟨m, t⟩
    · exact absurd rfl hl
    · have hm := hall m (by simp)
      have h0 := candScore_nonneg s m
      simp only at hm
      linarith
  · refine ⟨i, hi, h1, h2, ?_, ?_⟩
    · intro j hj; have := h4 j hj; rwa [h2] at this
    · intro j hj; have := h5 j hj; rwa [h2] at this

/-- Unfolding form of `best_media_match`. -/
theorem best_media_match_eq (for_sub : MPath) (l : List MPath) :
    best_media_match for_sub l
      = match (l.foldl (matchStep (normalize_stem for_sub.stem)) (none, -1)).1 with
        | some m =>
          if THRESHOLD ≤ (l.foldl (matchStep (normalize_stem for_sub.stem)) (none, -1)).2
          then some m else none
        | none => none := rfl

/-- A successful match is the first candidate attaining the maximal combined
score, and that score clears the threshold. -/
theorem bmm_some_argmax (for_sub : MPath) (l : List MPath) (m : MPath)
    (h : best_media_match for_sub l = some m) :
    ∃ i, i < l.length ∧ l.getD i dfl = m
      ∧ THRESHOLD ≤ candScore (normalize_stem for_sub.stem) m
      ∧ (∀ j, j < i → candScore (normalize_stem for_sub.stem) (l.getD j dfl)
            < candScore (normalize_stem for_sub.stem) m)
      ∧ (∀ j, j < l.length → candScore (normalize_stem for_sub.stem) (l.getD j dfl)
            ≤ candScore (normalize_stem for_sub.stem) m) := by
  by_cases hl : l = []
  · subst hl
    exact absurd h (by rw [best_media_match_eq]; simp)
  · obtain ⟨i, hi, h1, h2, h4, h5⟩ :=
      matchFold_first_argmax (normalize_stem for_sub.stem) l hl
    rw [best_media_match_eq, h1, h2] at h
    simp only at h
    split_ifs at h with hth
    · have hm : l.getD i dfl = m := by injection h
      refine ⟨i, hi, hm, ?_, ?_, ?_⟩
      · rw [← hm]; exact hth
      · intro j hj; rw [← hm]; exact h4 j hj
      · intro j hj; rw [← hm]; exact h5 j hj

/-- The matcher's fold over a single candidate. -/
theorem matchFold_singleton (for_sub m : MPath) :
    List.foldl (matchStep (normalize_stem for_sub.stem))
        ((none, -1) : Option MPath × ℚ) [m]
      = (some m, candScore (normalize_stem for_sub.stem) m) := by
  have h0 : ((none, -1) : Option MPath × ℚ).2
      < candScore (normalize_stem for_sub.stem) m :=
    lt_of_lt_of_le (by norm_num) (candScore_nonneg _ _)
  simp only [List.foldl_cons, List.foldl_nil, matchStep]
  rw [if_pos h0]

/-- The matcher on a single candidate reduces to the threshold test. -/
theorem bmm_singleton (for_sub m : MPath) :
    best_media_match for_sub [m]
      = if THRESHOLD ≤ candScore (normalize_stem for_sub.stem) m then some m
        else none := by
  rw [best_media_match_eq, matchFold_singleton]

theorem bestScore_singleton (for_sub m : MPath) :
    bestScore for_sub [m] = candScore (normalize_stem for_sub.stem) m := by
  rw [bestScore, matchFold_singleton]

/-- The matcher's fold over a two-candidate list whose first candidate scores
at least as well as the second. -/
theorem matchFold_pair (for_sub m1 m2 : MPath)
    (h : candScore (normalize_stem for_sub.stem) m2
          ≤ candScore (normalize_stem for_sub.stem) m1) :
    List.foldl (matchStep (normalize_stem for_sub.stem))
        ((none, -1) : Option MPath × ℚ) [m1, m2]
      = (some m1, candScore (normalize_stem for_sub.stem) m1) := by
  have h0 : ((none, -1) : Option MPath × ℚ).2
      < candScore (normalize_stem for_sub.stem) m1 :=
    lt_of_lt_of_le (by norm_num) (candScore_nonneg _ _)
  simp only [List.foldl_cons, List.foldl_nil, matchStep]
  rw [if_pos h0]
  simp only
  rw [if_neg (not_lt.2 h)]

/-! ### Concrete score evaluations -/

/-- Definitional one-step unfolding of `matchSumF`. -/
theorem matchSumF_succ (a b : List Char) (fuel alo ahi blo bhi : Nat) :
    matchSumF a b (fuel + 1) alo ahi blo bhi
      = if (flm a b alo ahi blo bhi).2.2 = 0 then 0
        else
          matchSumF a b fuel alo (flm a b alo ahi blo bhi).1 blo
              (flm a b alo ahi blo bhi).2.1
            + (flm a b alo ahi blo bhi).2.2
            + matchSumF a b fuel
                ((flm a b alo ahi blo bhi).1 + (flm a b alo ahi blo bhi).2.2) ahi
                ((flm a b alo ahi blo bhi).2.1 + (flm a b alo ahi blo bhi).2.2) bhi := rfl

set_option maxRecDepth 150000 in
theorem flm_boundary :
    flm "abcdefghijkwwwwwwwww".data "abcdefghijkxxxxxxxxx".data 0 20 0 20
      = (0, 0, 11) := by
  rw [flm]
  rw [show ((List.range' 0 (20 - 0)).flatMap fun i =>
        (List.range' 0 (20 - 0)).map fun j => (i, j))
      = (((List.range' 0 10).flatMap fun i =>
          (List.range' 0 20).map fun j => (i, j))
        ++ ((List.range' 10 10).flatMap fun i =>
          (List.range' 0 20).map fun j => (i, j))) from by decide]
  rw [List.foldl_append]
  rw [show List.foldl
      (flmStep "abcdefghijkwwwwwwwww".data "abcdefghijkxxxxxxxxx".data 0 0)
      (0, 0, 0) ((List.range' 0 10).flatMap fun i =>
        (List.range' 0 20).map fun j => (i, j)) = (0, 0, 10) from by decide]
  decide

set_option maxRecDepth 150000 in
theorem matchSum_boundary :
    matchSum "abcdefghijkwwwwwwwww".data "abcdefghijkxxxxxxxxx".data = 11 := by
  rw [matchSum]
  rw [show "abcdefghijkwwwwwwwww".data.length = 20 from by decide]
  rw [show "abcdefghijkxxxxxxxxx".data.length = 20 from by decide]
  rw [matchSumF_succ, flm_boundary]
  decide

/-- An exact-threshold score: two 20-character normalized stems sharing an
11-character block give `(2*11/40) * (1 - 0) = 0.55` exactly (the length
bias is 1 for equal lengths, and `2.0*11/40` is the same binary double as
the literal `0.55`, so the boundary is exact under float semantics too). -/
theorem combinedScore_boundary :
    combinedScore "abcdefghijkwwwwwwwww" "abcdefghijkxxxxxxxxx" = 55 / 100 := by
  have hl1 : "abcdefghijkwwwwwwwww".data.length = 20 := by decide
  have hl2 : "abcdefghijkxxxxxxxxx".data.length = 20 := by decide
  rw [combinedScore, baseSim_eval _ _ (by rw [hl1, hl2]; norm_num),
      matchSum_boundary, hl1, hl2]
  rw [show ((20 : ℕ) : ℤ) - ((20 : ℕ) : ℤ) = 0 from by decide]
  rw [show ((0 : ℤ)).natAbs = 0 from by decide]
  norm_num [max_def]

theorem matchSum_reject : matchSum "abcd".data "wxyz".data = 0 := by decide

theorem combinedScore_reject : combinedScore "abcd" "wxyz" = 0 := by
  rw [combinedScore, baseSim_eval _ _ (by decide), matchSum_reject]
  norm_num

set_option maxRecDepth 100000 in
theorem matchSum_movie :
    matchSum "movie title".data "movie title".data = 11 := by decide

theorem combinedScore_movie :
    combinedScore "movie title" "movie title" = 1 := by
  have hl : "movie title".data.length = 11 := by decide
  rw [combinedScore, baseSim_eval _ _ (by rw [hl]; norm_num), matchSum_movie, hl]
  rw [show ((11 : ℕ) : ℤ) - ((11 : ℕ) : ℤ) = 0 from by decide]
  rw [show ((0 : ℤ)).natAbs = 0 from by decide]
  norm_num [max_def]

set_option maxRecDepth 100000 in
theorem matchSum_interview :
    matchSum "interview".data "interview".data = 9 := by decide

theorem combinedScore_interview :
    combinedScore "interview" "interview" = 1 := by
  have hl : "interview".data.length = 9 := by decide
  rw [combinedScore, baseSim_eval _ _ (by rw [hl]; norm_num), matchSum_interview, hl]
  rw [show ((9 : ℕ) : ℤ) - ((9 : ℕ) : ℤ) = 0 from by decide]
  rw [show ((0 : ℤ)).natAbs = 0 from by decide]
  norm_num [max_def]

/-- On a two-candidate list whose first candidate scores at least as well as
the second and clears the threshold, the first wins. -/
theorem bmm_pair_first (for_sub m1 m2 : MPath)
    (h : candScore (normalize_stem for_sub.stem) m2
          ≤ candScore (normalize_stem for_sub.stem) m1)
    (ht : THRESHOLD ≤ candScore (normalize_stem for_sub.stem) m1) :
    best_media_match for_sub [m1, m2] = some m1 := by
  rw [best_media_match_eq, matchFold_pair for_sub m1 m2 h]
  simp only
  rw [if_pos ht]

/-! ## Claims about the matcher -/

/-- C10: calling the matcher with an empty candidate list (excluded by the
spec's precondition) does not fail: the loop never runs, `best` stays `None`,
and the no-match signal is returned. -/
theorem empty_candidates_no_match (for_sub : MPath) :
    best_media_match for_sub [] = none := rfl

/-- C3: the matcher returns a candidate exactly when the best combined score
reaches the 0.55 threshold; concretely, a best candidate scoring exactly
0.55 is accepted and a best candidate scoring strictly below 0.55 (here 0)
is rejected with the no-match result. -/
theorem threshold_boundary :
    (∀ (for_sub : MPath) (media_files : List MPath),
        (∃ m, best_media_match for_sub media_files = some m)
          ↔ media_files ≠ [] ∧ THRESHOLD ≤ bestScore for_sub media_files)
    ∧ best_media_match ⟨"d", "abcdefghijkwwwwwwwww", ".srt"⟩
        [⟨"d", "abcdefghijkxxxxxxxxx", ".mkv"⟩] = some ⟨"d", "abcdefghijkxxxxxxxxx", ".mkv"⟩
    ∧ bestScore ⟨"d", "abcdefghijkwwwwwwwww", ".srt"⟩
        [⟨"d", "abcdefghijkxxxxxxxxx", ".mkv"⟩] = 55 / 100
    ∧ best_media_match ⟨"d", "abcd", ".srt"⟩ [⟨"d", "wxyz", ".mkv"⟩] = none
    ∧ bestScore ⟨"d", "abcd", ".srt"⟩ [⟨"d", "wxyz", ".mkv"⟩] < 55 / 100 := by
  have hcB : candScore (normalize_stem (MPath.stem ⟨"d", "abcdefghijkwwwwwwwww", ".srt"⟩))
      ⟨"d", "abcdefghijkxxxxxxxxx", ".mkv"⟩ = 55 / 100 := by
    show combinedScore (normalize_stem "abcdefghijkwwwwwwwww")
        (normalize_stem "abcdefghijkxxxxxxxxx") = 55 / 100
    rw [show normalize_stem "abcdefghijkwwwwwwwww" = "abcdefghijkwwwwwwwww" from by decide]
    rw [show normalize_stem "abcdefghijkxxxxxxxxx" = "abcdefghijkxxxxxxxxx" from by decide]
    exact combinedScore_boundary
  have hcR : candScore (normalize_stem (MPath.stem ⟨"d", "abcd", ".srt"⟩))
      ⟨"d", "wxyz", ".mkv"⟩ = 0 := by
    show combinedScore (normalize_stem "abcd") (normalize_stem "wxyz") = 0
    rw [show normalize_stem "abcd" = "abcd" from by decide]
    rw [show normalize_stem "wxyz" = "wxyz" from by decide]
    exact combinedScore_reject
  refine ⟨?_, ?_, ?_, ?_, ?_⟩
  · intro for_sub media_files
    constructor
    · rintro ⟨m, hm⟩
      by_cases hl : media_files = []
      · subst hl
        rw [best_media_match_eq] at hm
        simp at hm
      · refine ⟨hl, ?_⟩
        obtain ⟨i, hi, h1, h2, h4, h5⟩ :=
          matchFold_first_argmax (normalize_stem for_sub.stem) media_files hl
        rw [best_media_match_eq, h1] at hm
        simp only at hm
        split_ifs at hm with hth
        exact hth
    · rintro ⟨hl, hth⟩
      obtain ⟨i, hi, h1, h2, h4, h5⟩ :=
        matchFold_first_argmax (normalize_stem for_sub.stem) media_files hl
      refine ⟨media_files.getD i dfl, ?_⟩
      rw [best_media_match_eq, h1]
      simp only
      have hth2 : THRESHOLD ≤ (List.foldl (matchStep (normalize_stem for_sub.stem))
          (none, -1) media_files).2 := hth
      rw [if_pos hth2]
  · rw [bmm_singleton, hcB]
    rw [if_pos (by rw [THRESHOLD])]
  · rw [bestScore_singleton, hcB]
  · rw [bmm_singleton, hcR]
    rw [if_neg (by rw [THRESHOLD]; norm_num)]
  · rw [bestScore_singleton, hcR]
    norm_num

/-- C4: the combined score is the character-sequence similarity of the two
normalized stems multiplied by the length penalty
`1 - 0.1 * (|len a - len b| / max(len a, len b, 1))`, and a returned match
attains the maximum combined score over the candidate list. -/
theorem combined_score_formula_and_max :
    (∀ a b : String, combinedScore a b
        = baseSim a.data b.data
          * (1 - (1 / 10) * ((((a.data.length : ℤ) - (b.data.length : ℤ)).natAbs : ℚ)
              / (max a.data.length (max b.data.length 1) : ℚ))))
    ∧ (∀ (for_sub : MPath) (media_files : List MPath) (m : MPath),
        best_media_match for_sub media_files = some m →
        ∃ i, i < media_files.length ∧ media_files.getD i dfl = m
          ∧ ∀ j, j < media_files.length →
              candScore (normalize_stem for_sub.stem) (media_files.getD j dfl)
                ≤ candScore (normalize_stem for_sub.stem) m) := by
  constructor
  · intro a b
    rw [combinedScore]
    ring
  · intro for_sub media_files m h
    obtain ⟨i, hi, him, _, _, h5⟩ := bmm_some_argmax for_sub media_files m h
    exact ⟨i, hi, him, h5⟩

/-- The "interview" subtitle matches the sole "interview" media candidate
(combined score 1). -/
theorem bmm_interview :
    best_media_match ⟨"d", "interview", ".srt"⟩ [⟨"d", "interview", ".mkv"⟩]
      = some ⟨"d", "interview", ".mkv"⟩ := by
  have hc : candScore (normalize_stem (MPath.stem ⟨"d", "interview", ".srt"⟩))
      ⟨"d", "interview", ".mkv"⟩ = 1 := by
    show combinedScore (normalize_stem "interview") (normalize_stem "interview") = 1
    rw [show normalize_stem "interview" = "interview" from by decide]
    exact combinedScore_interview
  rw [bmm_singleton, hc]
  rw [if_pos (by rw [THRESHOLD]; norm_num)]

/-- C4 witness: a concrete successful match ("interview" media for an
"interview" subtitle) attains the maximal combined score. -/
theorem combined_score_formula_and_max_witness :
    best_media_match ⟨"d", "interview", ".srt"⟩ [⟨"d", "interview", ".mkv"⟩]
      = some ⟨"d", "interview", ".mkv"⟩
    ∧ ∃ i, i < ([⟨"d", "interview", ".mkv"⟩] : List MPath).length
        ∧ ([⟨"d", "interview", ".mkv"⟩] : List MPath).getD i dfl = ⟨"d", "interview", ".mkv"⟩
        ∧ ∀ j, j < ([⟨"d", "interview", ".mkv"⟩] : List MPath).length →
            candScore (normalize_stem (MPath.stem ⟨"d", "interview", ".srt"⟩))
                (([⟨"d", "interview", ".mkv"⟩] : List MPath).getD j dfl)
              ≤ candScore (normalize_stem (MPath.stem ⟨"d", "interview", ".srt"⟩))
                  ⟨"d", "interview", ".mkv"⟩ :=
  ⟨bmm_interview, (combined_score_formula_and_max.2 _ _ _ bmm_interview)⟩

/-- C5: a returned match is the first candidate attaining the maximal
combined score: every earlier candidate scores strictly lower and every
candidate scores no higher. -/
theorem tie_break_first_wins (for_sub : MPath) (media_files : List MPath)
    (m : MPath) (h : best_media_match for_sub media_files = some m) :
    ∃ i, i < media_files.length ∧ media_files.getD i dfl = m
      ∧ (∀ j, j < i →
          candScore (normalize_stem for_sub.stem) (media_files.getD j dfl)
            < candScore (normalize_stem for_sub.stem) m)
      ∧ (∀ j, j < media_files.length →
          candScore (normalize_stem for_sub.stem) (media_files.getD j dfl)
            ≤ candScore (normalize_stem for_sub.stem) m) := by
  obtain ⟨i, hi, him, _, h4, h5⟩ := bmm_some_argmax for_sub media_files m h
  exact ⟨i, hi, him, h4, h5⟩

/-- C5 witness: two candidates with identical normalized stems
(`Movie_Title` and `Movie.Title` both normalize to `movie title`); the
earlier-listed one is returned. -/
theorem tie_break_first_wins_witness :
    best_media_match ⟨"d", "Movie Title", ".srt"⟩
        [⟨"d", "Movie_Title", ".mkv"⟩, ⟨"d", "Movie.Title", ".mp4"⟩]
      = some ⟨"d", "Movie_Title", ".mkv"⟩
    ∧ normalize_stem (MPath.stem ⟨"d", "Movie_Title", ".mkv"⟩)
        = normalize_stem (MPath.stem ⟨"d", "Movie.Title", ".mp4"⟩)
    ∧ ∃ i, i < ([⟨"d", "Movie_Title", ".mkv"⟩, ⟨"d", "Movie.Title", ".mp4"⟩] : List MPath).length
        ∧ ([⟨"d", "Movie_Title", ".mkv"⟩, ⟨"d", "Movie.Title", ".mp4"⟩] : List MPath).getD i dfl
            = ⟨"d", "Movie_Title", ".mkv"⟩
        ∧ (∀ j, j < i →
            candScore (normalize_stem (MPath.stem ⟨"d", "Movie Title", ".srt"⟩))
                (([⟨"d", "Movie_Title", ".mkv"⟩, ⟨"d", "Movie.Title", ".mp4"⟩] : List MPath).getD j dfl)
              < candScore (normalize_stem (MPath.stem ⟨"d", "Movie Title", ".srt"⟩))
                  ⟨"d", "Movie_Title", ".mkv"⟩)
        ∧ (∀ j, j < ([⟨"d", "Movie_Title", ".mkv"⟩, ⟨"d", "Movie.Title", ".mp4"⟩] : List MPath).length →
            candScore (normalize_stem (MPath.stem ⟨"d", "Movie Title", ".srt"⟩))
                (([⟨"d", "Movie_Title", ".mkv"⟩, ⟨"d", "Movie.Title", ".mp4"⟩] : List MPath).getD j dfl)
              ≤ candScore (normalize_stem (MPath.stem ⟨"d", "Movie Title", ".srt"⟩))
                  ⟨"d", "Movie_Title", ".mkv"⟩) := by
  have hc1 : candScore (normalize_stem (MPath.stem ⟨"d", "Movie Title", ".srt"⟩))
      ⟨"d", "Movie_Title", ".mkv"⟩ = 1 := by
    show combinedScore (normalize_stem "Movie Title") (normalize_stem "Movie_Title") = 1
    rw [show normalize_stem "Movie Title" = "movie title" from by decide]
    rw [show normalize_stem "Movie_Title" = "movie title" from by decide]
    exact combinedScore_movie
  have hc2 : candScore (normalize_stem (MPath.stem ⟨"d", "Movie Title", ".srt"⟩))
      ⟨"d", "Movie.Title", ".mp4"⟩ = 1 := by
    show combinedScore (normalize_stem "Movie Title") (normalize_stem "Movie.Title") = 1
    rw [show normalize_stem "Movie Title" = "movie title" from by decide]
    rw [show normalize_stem "Movie.Title" = "movie title" from by decide]
    exact combinedScore_movie
  have hb : best_media_match ⟨"d", "Movie Title", ".srt"⟩
      [⟨"d", "Movie_Title", ".mkv"⟩, ⟨"d", "Movie.Title", ".mp4"⟩]
      = some ⟨"d", "Movie_Title", ".mkv"⟩ := by
    refine bmm_pair_first _ _ _ ?_ ?_
    · rw [hc1, hc2]
    · rw [hc1, THRESHOLD]; norm_num
  refine ⟨hb, ?_, tie_break_first_wins _ _ _ hb⟩
  decide

/-! ## Batch orchestration (subsbatch.py, lines 80-131)

External effects appear as oracles in an environment: the media files grouped
by parent directory (lines 84-87), existence of the prospective output file
(line 113), and the exit code of the `ffsubsync` invocation (lines 120-121). -/

structure Env where
  mediaByDir : String → List MPath
  outExists : MPath → Bool
  alignExit : MPath → MPath → MPath → Int

/-- Per-subtitle outcome: the entry appended to exactly one of the three
lists declared on lines 93-95. -/
inductive Outcome where
  | synced (srt media : MPath)
  | skipped (srt : MPath) (reason : String)
  | failed (srt : MPath) (reason : String)
deriving DecidableEq

/-- One iteration of the `for srt in subs` loop (lines 97-131): the outcome
recorded for `srt`, paired with the external aligner invocations made for it,
each as `(media, subtitle, output)` of `ffsubsync media -i subtitle -o output`
(line 120). -/
def processOne (env : Env) (srt : MPath) :
    Outcome × List (MPath × MPath × MPath) :=
  let candidates := env.mediaByDir srt.parent
  if candidates = [] then (.failed srt "no media in folder", [])
  else
    match best_media_match srt candidates with
    | none => (.failed srt "no good match", [])
    | some m =>
      let out_srt := with_suffix m ".srt"
      if env.outExists out_srt && !OVERWRITE then (.skipped srt "exists", [])
      else if env.alignExit m srt out_srt = 0 then
        (.synced srt m, [(m, srt, out_srt)])
      else
        (.failed srt ("ffsubsync error (" ++ toString (env.alignExit m srt out_srt) ++ ")"),
          [(m, srt, out_srt)])

/-- Record an outcome in the matching accumulator list (the `append` calls on
lines 101, 107, 115, 128, 131). -/
def addOutcome (o : Outcome)
    (acc : List (MPath × MPath) × List (MPath × String) × List (MPath × String)) :
    List (MPath × MPath) × List (MPath × String) × List (MPath × String) :=
  match o with
  | .synced s m => ((s, m) :: acc.1, acc.2.1, acc.2.2)
  | .skipped s r => (acc.1, (s, r) :: acc.2.1, acc.2.2)
  | .failed s r => (acc.1, acc.2.1, (s, r) :: acc.2.2)

/-- The batch loop over all discovered subtitles, producing the
`synced`/`skipped`/`failed` lists in discovery order. -/
def batchRun (env : Env) :
    List MPath → List (MPath × MPath) × List (MPath × String) × List (MPath × String)
  | [] => ([], [], [])
  | srt :: rest => addOutcome (processOne env srt).1 (batchRun env rest)

/-- Files written in the model: the output paths of the aligner invocations. -/
def writesOf (cmds : List (MPath × MPath × MPath)) : List MPath :=
  cmds.map fun c => c.2.2

/-- The subtitle an outcome is about. -/
def Outcome.subject : Outcome → MPath
  | .synced s _ => s
  | .skipped s _ => s
  | .failed s _ => s

/-- `processOne` records an outcome about the very subtitle it processed. -/
theorem processOne_subject (env : Env) (srt : MPath) :
    ((processOne env srt).1).subject = srt := by
  rw [processOne]
  by_cases h1 : env.mediaByDir srt.parent = []
  · rw [if_pos h1]; rfl
  · rw [if_neg h1]
    rcases hb : best_media_match srt (env.mediaByDir srt.parent) with _ | m
    · rfl
    · simp only
      by_cases h2 : env.outExists (with_suffix m ".srt") && !OVERWRITE
      · rw [if_pos h2]; rfl
      · rw [if_neg h2]
        by_cases h3 : env.alignExit m srt (with_suffix m ".srt") = 0
        · rw [if_pos h3]; rfl
        · rw [if_neg h3]; rfl

/-- C2: batch isolation and accounting.  Each subtitle's processing is a
total function of the environment alone, so one subtitle's failure leaves the
processing of the remaining subtitles unchanged (first conjunct); every
discovered subtitle lands in exactly one outcome list, so
`len synced + len skipped + len failed = number of subtitles` (second
conjunct) and, subtitle by subtitle, the three lists' occurrence counts sum
to the input's (third conjunct). -/
theorem batch_isolation_and_counts :
    (∀ (env : Env) (srt : MPath) (rest : List MPath),
        batchRun env (srt :: rest)
          = addOutcome (processOne env srt).1 (batchRun env rest))
    ∧ (∀ (env : Env) (subs : List MPath),
        (batchRun env subs).1.length + (batchRun env subs).2.1.length
          + (batchRun env subs).2.2.length = subs.length)
    ∧ (∀ (env : Env) (subs : List MPath) (p : MPath),
        ((batchRun env subs).1.map Prod.fst).count p
          + ((batchRun env subs).2.1.map Prod.fst).count p
          + ((batchRun env subs).2.2.map Prod.fst).count p
          = subs.count p) := by
  refine ⟨fun env srt rest => rfl, ?_, ?_⟩
  · intro env subs
    induction subs with
    | nil => rfl
    | cons s rest ih =>
      rw [show batchRun env (s :: rest)
          = addOutcome (processOne env s).1 (batchRun env rest) from rfl]
      cases h : (processOne env s).1 <;>
        simp only [addOutcome, List.length_cons] <;> omega
  · intro env subs p
    induction subs with
    | nil => rfl
    | cons s rest ih =>
      rw [show batchRun env (s :: rest)
          = addOutcome (processOne env s).1 (batchRun env rest) from rfl]
      have hsub := processOne_subject env s
      cases h : (processOne env s).1 <;> rw [h] at hsub <;>
        simp only [Outcome.subject] at hsub <;> subst hsub <;>
        simp only [addOutcome, List.map_cons, List.count_cons] <;> omega

/-- The aligner invocations of one batch iteration: none, or exactly one on
the matched media with the output path derived from that media. -/
theorem processOne_cmds (env : Env) (srt : MPath) :
    (processOne env srt).2 = []
    ∨ ∃ m, best_media_match srt (env.mediaByDir srt.parent) = some m
        ∧ (processOne env srt).2 = [(m, srt, with_suffix m ".srt")] := by
  rw [processOne]
  by_cases h1 : env.mediaByDir srt.parent = []
  · rw [if_pos h1]; exact Or.inl rfl
  · rw [if_neg h1]
    rcases hb : best_media_match srt (env.mediaByDir srt.parent) with _ | m
    · exact Or.inl rfl
    · simp only
      by_cases h2 : env.outExists (with_suffix m ".srt") && !OVERWRITE
      · rw [if_pos h2]; exact Or.inl rfl
      · rw [if_neg h2]
        by_cases h3 : env.alignExit m srt (with_suffix m ".srt") = 0
        · rw [if_pos h3]; exact Or.inr ⟨m, hb ▸ rfl, rfl⟩
        · rw [if_neg h3]; exact Or.inr ⟨m, hb ▸ rfl, rfl⟩

/-- C6: when the output path derived from the matched media already exists
(and overwriting is disabled, the configured default), the subtitle is
recorded as skipped with reason "exists", no aligner command is invoked for
it, and so nothing is written. -/
theorem skip_semantics (env : Env) (srt m : MPath)
    (hmatch : best_media_match srt (env.mediaByDir srt.parent) = some m)
    (hexists : env.outExists (with_suffix m ".srt") = true) :
    (processOne env srt).1 = .skipped srt "exists"
    ∧ (processOne env srt).2 = []
    ∧ writesOf (processOne env srt).2 = [] := by
  have hne : env.mediaByDir srt.parent ≠ [] := by
    intro h
    rw [h] at hmatch
    exact Option.noConfusion hmatch
  have hp : processOne env srt = (.skipped srt "exists", []) := by
    rw [processOne]
    rw [if_neg hne, hmatch]
    simp only
    rw [hexists]
    rfl
  exact ⟨by rw [hp], by rw [hp], by rw [hp]; rfl⟩

/-- Environment for the skip witness: one media candidate beside the
subtitle, the prospective output file already exists. -/
def envEx : Env :=
  ⟨fun _ => [⟨"d", "interview", ".mkv"⟩], fun _ => true, fun _ _ _ => 0⟩

/-- C6 witness: the skip behaviour at a concrete environment. -/
theorem skip_semantics_witness :
    best_media_match ⟨"d", "interview", ".srt"⟩
        (envEx.mediaByDir (MPath.parent ⟨"d", "interview", ".srt"⟩))
      = some ⟨"d", "interview", ".mkv"⟩
    ∧ envEx.outExists (with_suffix ⟨"d", "interview", ".mkv"⟩ ".srt") = true
    ∧ ((processOne envEx ⟨"d", "interview", ".srt"⟩).1
          = .skipped ⟨"d", "interview", ".srt"⟩ "exists"
        ∧ (processOne envEx ⟨"d", "interview", ".srt"⟩).2 = []
        ∧ writesOf (processOne envEx ⟨"d", "interview", ".srt"⟩).2 = []) := by
  have h1 : best_media_match ⟨"d", "interview", ".srt"⟩
      (envEx.mediaByDir (MPath.parent ⟨"d", "interview", ".srt"⟩))
      = some ⟨"d", "interview", ".mkv"⟩ := bmm_interview
  exact ⟨h1, rfl, skip_semantics envEx _ _ h1 rfl⟩

/-- Output path of the single-pair flow (subsynch.py, line 110):
`out_srt = media.with_suffix(".srt")`, computed from the selected media
alone — the chosen subtitle plays no part. -/
def subsynch_out (media : MPath) : MPath := with_suffix media ".srt"

/-- C1: output naming.  Every aligner invocation of the batch flow writes to
the matched media's path with suffix `.srt` (same parent, same stem as the
media); the single-pair flow computes the same path from its media; and the
output path is therefore independent of the input subtitle's name: two
invocations on the same media, for any subtitles in any environments, target
the same output path. -/
theorem output_named_after_media :
    (∀ (env : Env) (srt media sub out : MPath),
        (media, sub, out) ∈ (processOne env srt).2 →
        out = ⟨media.parent, media.stem, ".srt"⟩)
    ∧ (∀ media : MPath, subsynch_out media = ⟨media.parent, media.stem, ".srt"⟩)
    ∧ (∀ (env env' : Env) (srt srt' media sub sub' out out' : MPath),
        (media, sub, out) ∈ (processOne env srt).2 →
        (media, sub', out') ∈ (processOne env' srt').2 →
        out = out') := by
  have hmain : ∀ (env : Env) (srt media sub out : MPath),
      (media, sub, out) ∈ (processOne env srt).2 →
      out = ⟨media.parent, media.stem, ".srt"⟩ := by
    intro env srt media sub out hmem
    rcases processOne_cmds env srt with h | ⟨m, hb, h⟩
    · rw [h] at hmem
      simp at hmem
    · rw [h] at hmem
      simp only [List.mem_singleton, Prod.mk.injEq] at hmem
      obtain ⟨hm, _, ho⟩ := hmem
      subst hm
      subst ho
      rfl
  refine ⟨hmain, fun media => rfl, ?_⟩
  intro env env' srt srt' media sub sub' out out' h1 h2
  rw [hmain env srt media sub out h1, hmain env' srt' media sub' out' h2]

/-- Environment for the output-naming witness: one media candidate, no
pre-existing output, aligner succeeds. -/
def envOk : Env :=
  ⟨fun _ => [⟨"d", "interview", ".mkv"⟩], fun _ => false, fun _ _ _ => 0⟩

/-- C1 witness: a concrete successful batch invocation writes to
`interview.srt` next to `interview.mkv`. -/
theorem output_named_after_media_witness :
    (⟨"d", "interview", ".mkv"⟩, ⟨"d", "interview", ".srt"⟩,
        with_suffix ⟨"d", "interview", ".mkv"⟩ ".srt")
      ∈ (processOne envOk ⟨"d", "interview", ".srt"⟩).2
    ∧ with_suffix ⟨"d", "interview", ".mkv"⟩ ".srt"
        = ⟨MPath.parent ⟨"d", "interview", ".mkv"⟩,
            MPath.stem ⟨"d", "interview", ".mkv"⟩, ".srt"⟩ := by
  have hp : (processOne envOk ⟨"d", "interview", ".srt"⟩).2
      = [(⟨"d", "interview", ".mkv"⟩, ⟨"d", "interview", ".srt"⟩,
          with_suffix ⟨"d", "interview", ".mkv"⟩ ".srt")] := by
    rw [processOne]
    rw [if_neg (by decide)]
    rw [show envOk.mediaByDir (MPath.parent ⟨"d", "interview", ".srt"⟩)
        = [⟨"d", "interview", ".mkv"⟩] from rfl]
    rw [bmm_interview]
    simp only
    rw [if_neg (by decide)]
    rw [if_pos (by decide)]
  have hmem : (⟨"d", "interview", ".mkv"⟩, ⟨"d", "interview", ".srt"⟩,
      with_suffix ⟨"d", "interview", ".mkv"⟩ ".srt")
      ∈ (processOne envOk ⟨"d", "interview", ".srt"⟩).2 := by
    rw [hp]
    exact List.mem_singleton.2 rfl
  exact ⟨hmem, output_named_after_media.1 envOk _ _ _ _ hmem⟩

/-! ## Normalizer theory (towards C7 and C8) -/

theorem toNat_ofNat_valid (n : Nat) (h : n.isValidChar) :
    (Char.ofNat n).toNat = n := by
  rw [Char.ofNat, dif_pos h]
  rfl

theorem pyLower_fix (d : Char) (h : ¬(65 ≤ d.toNat ∧ d.toNat ≤ 90)) :
    pyLower d = d := by
  rw [pyLower, if_neg h]

theorem pyLower_idem (c : Char) : pyLower (pyLower c) = pyLower c := by
  by_cases h : 65 ≤ c.toNat ∧ c.toNat ≤ 90
  · have hd : (pyLower c).toNat = c.toNat + 32 := by
      rw [pyLower, if_pos h]
      exact toNat_ofNat_valid _ (Or.inl (by omega))
    exact pyLower_fix _ (by rw [hd]; omega)
  · rw [pyLower_fix c h]
    exact pyLower_fix c h

/-- A non-space output of `prepChar` is a fixed point of `prepChar`. -/
theorem prepChar_fix (c : Char) (h : pyIsSpace (prepChar c) = false) :
    prepChar (prepChar c) = prepChar c := by
  have hsep : pyLower c ∉ sepChars := by
    intro hmem
    rw [prepChar, replaceSep, if_pos hmem] at h
    exact absurd h (by decide)
  have hpc : prepChar c = pyLower c := by
    rw [prepChar, replaceSep, if_neg hsep]
  rw [hpc, prepChar, pyLower_idem, replaceSep, if_neg hsep]

theorem prepChar_space : prepChar ' ' = ' ' := by decide

/-- Words produced by `pySplit` are nonempty and whitespace-free (provided
the running accumulator is whitespace-free). -/
theorem pySplit_good : ∀ (l acc : List Char),
    (∀ c ∈ acc, pyIsSpace c = false) →
    ∀ w ∈ pySplit l acc, w ≠ [] ∧ ∀ c ∈ w, pyIsSpace c = false := by
  intro l
  induction l with
  | nil =>
    intro acc hacc w hw
    rw [pySplit] at hw
    split_ifs at hw with h
    · simp at hw
    · simp only [List.mem_singleton] at hw
      subst hw
      refine ⟨by simpa using h, ?_⟩
      intro c hc
      exact hacc c (List.mem_reverse.1 hc)
  | cons x t ih =>
    intro acc hacc w hw
    rw [pySplit] at hw
    split_ifs at hw with h1 h2
    · exact ih [] (by simp) w hw
    · rcases List.mem_cons.1 hw with rfl | hw
      · refine ⟨by simpa using h2, ?_⟩
        intro c hc
        exact hacc c (List.mem_reverse.1 hc)
      · exact ih [] (by simp) w hw
    · refine ih (x :: acc) ?_ w hw
      intro c hc
      rcases List.mem_cons.1 hc with rfl | hc
      · simpa using h1
      · exact hacc c hc

/-- `pySplit` with a nonempty accumulator yields at least one word. -/
theorem pySplit_ne_nil : ∀ (l acc : List Char), acc ≠ [] → pySplit l acc ≠ [] := by
  intro l
  induction l with
  | nil =>
    intro acc hacc
    rw [pySplit, if_neg hacc]
    simp
  | cons x t ih =>
    intro acc hacc
    rw [pySplit]
    split_ifs with h1
    · simp
    · exact ih (x :: acc) (by simp)

/-- If `pySplit` yields no words, the input was all whitespace. -/
theorem pySplit_nil_all_ws : ∀ (l : List Char), pySplit l [] = [] →
    ∀ c ∈ l, pyIsSpace c = true := by
  intro l
  induction l with
  | nil => intro _ c hc; simp at hc
  | cons x t ih =>
    intro h c hc
    rw [pySplit] at h
    split_ifs at h with h1
    · rcases List.mem_cons.1 hc with rfl | hc
      · exact h1
      · exact ih (by simpa using h) c hc
    · exact absurd h (pySplit_ne_nil t [x] (by simp))

/-- Every character of a `pySplit` word comes from the input or the
accumulator. -/
theorem pySplit_chars : ∀ (l acc : List Char) (w : List Char),
    w ∈ pySplit l acc → ∀ c ∈ w, c ∈ l ∨ c ∈ acc := by
  intro l
  induction l with
  | nil =>
    intro acc w hw c hc
    rw [pySplit] at hw
    split_ifs at hw with h
    · simp at hw
    · simp only [List.mem_singleton] at hw
      subst hw
      exact Or.inr (List.mem_reverse.1 hc)
  | cons x t ih =>
    intro acc w hw c hc
    rw [pySplit] at hw
    split_ifs at hw with h1 h2
    · rcases ih [] w hw c hc with h | h
      · exact Or.inl (List.mem_cons_of_mem x h)
      · simp at h
    · rcases List.mem_cons.1 hw with rfl | hw
      · exact Or.inr (List.mem_reverse.1 hc)
      · rcases ih [] w hw c hc with h | h
        · exact Or.inl (List.mem_cons_of_mem x h)
        · simp at h
    · rcases ih (x :: acc) w hw c hc with h | h
      · exact Or.inl (List.mem_cons_of_mem x h)
      · rcases List.mem_cons.1 h with hcx | h
        · exact Or.inl (by rw [hcx]; exact List.mem_cons_self _ _)
        · exact Or.inr h

/-- Consuming a whitespace-free chunk moves it into the accumulator. -/
theorem pySplit_append_word : ∀ (w l acc : List Char),
    (∀ c ∈ w, pyIsSpace c = false) →
    pySplit (w ++ l) acc = pySplit l (w.reverse ++ acc) := by
  intro w
  induction w with
  | nil => intro l acc _; simp
  | cons x t ih =>
    intro l acc hw
    have hx : pyIsSpace x = false := hw x (List.mem_cons_self x t)
    rw [List.cons_append, pySplit, if_neg (by simp [hx])]
    rw [ih l (x :: acc) (fun c hc => hw c (List.mem_cons_of_mem x hc))]
    rw [List.reverse_cons, List.append_assoc]
    rfl

/-- Unconditional cons-cons equation for `joinSpace`. -/
theorem joinSpace_cons_cons (w w' : List Char) (ws' : List (List Char)) :
    joinSpace (w :: w' :: ws') = w ++ ' ' :: joinSpace (w' :: ws') := by
  rw [joinSpace]
  simp

/-- `pySplit` inverts `joinSpace` on lists of good words. -/
theorem pySplit_joinSpace : ∀ (ws : List (List Char)),
    (∀ w ∈ ws, w ≠ [] ∧ ∀ c ∈ w, pyIsSpace c = false) →
    pySplit (joinSpace ws) [] = ws := by
  intro ws
  induction ws with
  | nil => intro _; rfl
  | cons w ws ih =>
    intro h
    obtain ⟨hw, hwf⟩ := h w (List.mem_cons_self w ws)
    cases ws with
    | nil =>
      have h1 : pySplit (w ++ []) [] = pySplit [] (w.reverse ++ []) :=
        pySplit_append_word w [] [] hwf
      rw [List.append_nil, List.append_nil] at h1
      rw [joinSpace, h1, pySplit, if_neg (by simpa using hw)]
      rw [List.reverse_reverse]
    | cons w' ws' =>
      rw [joinSpace_cons_cons, pySplit_append_word w (' ' :: joinSpace (w' :: ws')) [] hwf]
      rw [List.append_nil, pySplit, if_pos (by decide),
        if_neg (by simpa using hw)]
      rw [List.reverse_reverse]
      rw [ih (fun u hu => h u (List.mem_cons_of_mem w hu))]

/-- The first character of the space-join of good words is not whitespace. -/
theorem joinSpace_head (ws : List (List Char))
    (h : ∀ w ∈ ws, w ≠ [] ∧ ∀ c ∈ w, pyIsSpace c = false) (hne : ws ≠ []) :
    ∃ c t, joinSpace ws = c :: t ∧ pyIsSpace c = false := by
  cases ws with
  | nil => exact absurd rfl hne
  | cons w ws' =>
    obtain ⟨hw, hwf⟩ := h w (List.mem_cons_self w ws')
    cases w with
    | nil => exact absurd rfl hw
    | cons c w' =>
      have hc : pyIsSpace c = false := hwf c (List.mem_cons_self c w')
      cases ws' with
      | nil => exact ⟨c, w', rfl, hc⟩
      | cons w'' ws'' =>
        refine ⟨c, w' ++ ' ' :: joinSpace (w'' :: ws''), ?_, hc⟩
        rw [joinSpace_cons_cons]
        rfl

/-- The reversed space-join of good words starts with a non-whitespace
character. -/
theorem joinSpace_reverse_head (ws : List (List Char))
    (h : ∀ w ∈ ws, w ≠ [] ∧ ∀ c ∈ w, pyIsSpace c = false) (hne : ws ≠ []) :
    ∃ c t, (joinSpace ws).reverse = c :: t ∧ pyIsSpace c = false := by
  induction ws with
  | nil => exact absurd rfl hne
  | cons w ws' ih =>
    obtain ⟨hw, hwf⟩ := h w (List.mem_cons_self w ws')
    cases ws' with
    | nil =>
      rcases hr : w.reverse with _ | ⟨c, t⟩
      · exact absurd (by simpa using hr) hw
      · have hc : c ∈ w := by
          have hm : c ∈ w.reverse := by rw [hr]; exact List.mem_cons_self c t
          exact List.mem_reverse.1 hm
        exact ⟨c, t, by rw [joinSpace, hr], hwf c hc⟩
    | cons w'' ws'' =>
      obtain ⟨c, t, hct, hc⟩ :=
        ih (fun u hu => h u (List.mem_cons_of_mem w hu)) (by simp)
      refine ⟨c, t ++ ' ' :: w.reverse, ?_, hc⟩
      rw [joinSpace_cons_cons, List.reverse_append, List.reverse_cons, hct]
      simp

/-- `pyStrip` fixes the space-join of good words. -/
theorem pyStrip_joinSpace (ws : List (List Char))
    (h : ∀ w ∈ ws, w ≠ [] ∧ ∀ c ∈ w, pyIsSpace c = false) :
    pyStrip (joinSpace ws) = joinSpace ws := by
  by_cases hne : ws = []
  · subst hne; rfl
  · obtain ⟨c, t, hct, hc⟩ := joinSpace_head ws h hne
    obtain ⟨c', t', hct', hc'⟩ := joinSpace_reverse_head ws h hne
    have h1 : (joinSpace ws).dropWhile pyIsSpace = joinSpace ws := by
      rw [hct, List.dropWhile_cons, hc]
      simp
    have h2 : (joinSpace ws).reverse.dropWhile pyIsSpace = (joinSpace ws).reverse := by
      rw [hct', List.dropWhile_cons, hc']
      simp
    rw [pyStrip, h1, h2, List.reverse_reverse]

/-- `normalize_stem` is the space-join of the split words: the final
`.strip()` has nothing to remove. -/
theorem normalize_stem_eq (s : String) :
    normalize_stem s = String.mk (joinSpace (pySplit (s.data.map prepChar) [])) := by
  rw [normalize_stem]
  rw [pyStrip_joinSpace _ (pySplit_good _ [] (by simp))]

/-- `map prepChar` fixes the space-join of words of `prepChar`-fixed
characters. -/
theorem map_prepChar_joinSpace (ws : List (List Char))
    (h : ∀ w ∈ ws, ∀ c ∈ w, prepChar c = c) :
    (joinSpace ws).map prepChar = joinSpace ws := by
  induction ws with
  | nil => rfl
  | cons w ws' ih =>
    have hw : w.map prepChar = w := by
      rw [List.map_congr_left (h w (List.mem_cons_self w ws'))]
      exact List.map_id w
    cases ws' with
    | nil => exact hw
    | cons w'' ws'' =>
      rw [joinSpace_cons_cons, List.map_append, List.map_cons, hw, prepChar_space]
      rw [ih (fun u hu => h u (List.mem_cons_of_mem w hu))]

/-- C8: the filename normalizer is idempotent. -/
theorem normalize_stem_idempotent (x : String) :
    normalize_stem (normalize_stem x) = normalize_stem x := by
  have hgood := pySplit_good (x.data.map prepChar) []
    (by simp)
  have hfix : ∀ w ∈ pySplit (x.data.map prepChar) [], ∀ c ∈ w, prepChar c = c := by
    intro w hw c hc
    obtain ⟨c0, hc0, hcc⟩ : ∃ c0 ∈ x.data, prepChar c0 = c := by
      have hin := pySplit_chars (x.data.map prepChar) [] w hw c hc
      rcases hin with hin | hin
      · exact List.mem_map.1 hin
      · simp at hin
    have hnws : pyIsSpace c = false := (hgood w hw).2 c hc
    rw [← hcc]
    exact prepChar_fix c0 (by rw [hcc]; exact hnws)
  rw [normalize_stem_eq x]
  rw [normalize_stem_eq ⟨joinSpace (pySplit (x.data.map prepChar) [])⟩]
  rw [show (String.mk (joinSpace (pySplit (x.data.map prepChar) []))).data
      = joinSpace (pySplit (x.data.map prepChar) []) from rfl]
  rw [map_prepChar_joinSpace _ hfix]
  rw [pySplit_joinSpace _ hgood]

/-! ## The spec's reading of the normalizer (towards C7)

The spec describes the output as "runs of whitespace collapsed to single
spaces, leading/trailing whitespace removed"; the code computes
`" ".join(t.split())` and strips it.  `collapseWsAux` renders the spec's
wording; the equivalence is proved below. -/

/-- Collapse each whitespace run to a single space; the flag records whether
the previous character was part of a whitespace run. -/
def collapseWsAux : Bool → List Char → List Char
  | _, [] => []
  | prevWs, c :: cs =>
    if pyIsSpace c then
      if prevWs then collapseWsAux true cs else ' ' :: collapseWsAux true cs
    else c :: collapseWsAux false cs

/-- The normalizer as the spec words it: lowercase, separators to spaces,
whitespace runs collapsed to single spaces, leading/trailing whitespace
trimmed. -/
def specNormalize (s : String) : String :=
  String.mk (pyStrip (collapseWsAux false (s.data.map prepChar)))

theorem collapse_true_all_ws : ∀ (cs : List Char),
    (∀ c ∈ cs, pyIsSpace c = true) → collapseWsAux true cs = [] := by
  intro cs
  induction cs with
  | nil => intro _; rfl
  | cons c cs' ih =>
    intro h
    rw [collapseWsAux, if_pos (h c (List.mem_cons_self c cs')), if_pos rfl]
    exact ih (fun d hd => h d (List.mem_cons_of_mem c hd))

theorem collapse_true_head : ∀ (cs : List Char),
    collapseWsAux true cs = []
    ∨ ∃ c t, collapseWsAux true cs = c :: t ∧ pyIsSpace c = false := by
  intro cs
  induction cs with
  | nil => exact Or.inl rfl
  | cons c cs' ih =>
    by_cases hc : pyIsSpace c = true
    · rw [collapseWsAux, if_pos hc, if_pos rfl]
      exact ih
    · rw [collapseWsAux, if_neg hc]
      exact Or.inr ⟨c, collapseWsAux false cs', rfl, by simpa using hc⟩

/-- `dropWhile` is the identity when no element satisfies the predicate. -/
theorem dropWhile_all_false (l : List Char)
    (h : ∀ c ∈ l, pyIsSpace c = false) : l.dropWhile pyIsSpace = l := by
  cases l with
  | nil => rfl
  | cons c cs =>
    rw [List.dropWhile_cons, h c (List.mem_cons_self c cs)]
    simp

/-- Stripping a whitespace-free word with one trailing space gives the word
back. -/
theorem pyStrip_word_space (w : List Char) (hw : w ≠ [])
    (hwf : ∀ c ∈ w, pyIsSpace c = false) :
    pyStrip (w ++ [' ']) = w := by
  rcases w with _ | ⟨c0, w'⟩
  · exact absurd rfl hw
  · have hc0 : pyIsSpace c0 = false := hwf c0 (List.mem_cons_self c0 w')
    have h1 : ((c0 :: w') ++ [' ']).dropWhile pyIsSpace = (c0 :: w') ++ [' '] := by
      rw [List.cons_append, List.dropWhile_cons, hc0]
      simp
    have h2 : ((c0 :: w') ++ [' ']).reverse.dropWhile pyIsSpace
        = (c0 :: w').reverse := by
      rw [List.reverse_append]
      rw [show ([' '] : List Char).reverse = [' '] from rfl]
      rw [List.singleton_append, List.dropWhile_cons]
      rw [if_pos (by decide)]
      exact dropWhile_all_false _ (fun c hc => hwf c (List.mem_reverse.1 hc))
    rw [pyStrip, h1, h2, List.reverse_reverse]

theorem pyStrip_cons_ws (c : Char) (l : List Char) (h : pyIsSpace c = true) :
    pyStrip (c :: l) = pyStrip l := by
  rw [pyStrip, pyStrip, List.dropWhile_cons, h]
  simp

/-- Strip-collapse agrees with join-split, mutually over both flag values and
over a pending word: the inductive heart of the C7 equivalence. -/
theorem collapse_eq_join_split : ∀ (n : Nat) (l : List Char), l.length ≤ n →
    (pyStrip (collapseWsAux false l) = joinSpace (pySplit l [])
    ∧ pyStrip (collapseWsAux true l) = joinSpace (pySplit l [])
    ∧ ∀ w : List Char, w ≠ [] → (∀ c ∈ w, pyIsSpace c = false) →
        pyStrip (w ++ collapseWsAux false l) = joinSpace (pySplit l w.reverse)) := by
  have hbase : ∀ w : List Char, w ≠ [] → (∀ c ∈ w, pyIsSpace c = false) →
      pyStrip (w ++ collapseWsAux false []) = joinSpace (pySplit [] w.reverse) := by
    intro w hw hwf
    rw [show collapseWsAux false [] = ([] : List Char) from rfl, List.append_nil]
    rw [pySplit, if_neg (by simpa using hw), List.reverse_reverse]
    exact pyStrip_joinSpace [w]
      (by intro u hu; simp only [List.mem_singleton] at hu; subst hu; exact ⟨hw, hwf⟩)
  intro n
  induction n with
  | zero =>
    intro l hl
    have h0 : l = [] := List.length_eq_zero.1 (Nat.le_zero.1 hl)
    subst h0
    exact ⟨rfl, rfl, hbase⟩
  | succ n ih =>
    intro l hl
    cases l with
    | nil => exact ⟨rfl, rfl, hbase⟩
    | cons c cs =>
      have hcs : cs.length ≤ n := by
        rw [List.length_cons] at hl
        omega
      obtain ⟨ih1, ih2, ih3⟩ := ih cs hcs
      by_cases hc : pyIsSpace c = true
      · refine ⟨?_, ?_, ?_⟩
        · rw [collapseWsAux, if_pos hc, if_neg (by simp)]
          rw [pyStrip_cons_ws ' ' _ (by decide)]
          rw [pySplit, if_pos hc, if_pos rfl]
          exact ih2
        · rw [collapseWsAux, if_pos hc, if_pos rfl]
          rw [pySplit, if_pos hc, if_pos rfl]
          exact ih2
        · intro w hw hwf
          rw [collapseWsAux, if_pos hc, if_neg (by simp)]
          rw [pySplit, if_pos hc, if_neg (by simpa using hw)]
          rw [List.reverse_reverse]
          by_cases hsp : pySplit cs [] = []
          · rw [hsp]
            rw [show joinSpace [w] = w from rfl]
            rw [collapse_true_all_ws cs (pySplit_nil_all_ws cs hsp)]
            exact pyStrip_word_space w hw hwf
          · rcases hW : pySplit cs [] with _ | ⟨w1, ws1⟩
            · exact absurd hW hsp
            · have hgood' : ∀ u ∈ w1 :: ws1, u ≠ [] ∧ ∀ d ∈ u, pyIsSpace d = false := by
                rw [← hW]
                exact pySplit_good cs [] (by simp)
              have hJne : joinSpace (w1 :: ws1) ≠ [] := by
                obtain ⟨d, t, hdt, _⟩ := joinSpace_head _ hgood' (by simp)
                rw [hdt]
                simp
              have hT2 : pyStrip (collapseWsAux true cs) = joinSpace (w1 :: ws1) := by
                rw [ih2, hW]
              rcases collapse_true_head cs with hTnil | ⟨d, t, hdt, hd⟩
              · rw [hTnil] at hT2
                rw [show pyStrip ([] : List Char) = [] from rfl] at hT2
                exact absurd hT2.symm hJne
              · have hfrontT : (collapseWsAux true cs).dropWhile pyIsSpace
                    = collapseWsAux true cs := by
                  rw [hdt, List.dropWhile_cons, hd]
                  simp
                have hDrev : pyStrip (collapseWsAux true cs)
                    = ((collapseWsAux true cs).reverse.dropWhile pyIsSpace).reverse := by
                  rw [pyStrip, hfrontT]
                have hDne : (collapseWsAux true cs).reverse.dropWhile pyIsSpace ≠ [] := by
                  intro h0
                  rw [h0] at hDrev
                  rw [show ([] : List Char).reverse = [] from rfl] at hDrev
                  rw [hDrev] at hT2
                  exact hJne hT2.symm
                rcases w with _ | ⟨c0, w'⟩
                · exact absurd rfl hw
                · have hc0 : pyIsSpace c0 = false := hwf c0 (List.mem_cons_self _ _)
                  have hfront : ((c0 :: w') ++ ' ' :: collapseWsAux true cs).dropWhile pyIsSpace
                      = (c0 :: w') ++ ' ' :: collapseWsAux true cs := by
                    rw [List.cons_append, List.dropWhile_cons, hc0]
                    simp
                  have hrev : ((c0 :: w') ++ ' ' :: collapseWsAux true cs).reverse
                      = (collapseWsAux true cs).reverse ++ (' ' :: (c0 :: w').reverse) := by
                    rw [List.reverse_append, List.reverse_cons, List.append_assoc]
                    rfl
                  have hback : (((c0 :: w') ++ ' ' :: collapseWsAux true cs).reverse).dropWhile pyIsSpace
                      = ((collapseWsAux true cs).reverse.dropWhile pyIsSpace)
                          ++ (' ' :: (c0 :: w').reverse) := by
                    rw [hrev, List.dropWhile_append]
                    rw [if_neg (by simpa using hDne)]
                  rw [pyStrip, hfront, hback, List.reverse_append]
                  rw [show (' ' :: (c0 :: w').reverse).reverse = (c0 :: w') ++ [' '] from by simp]
                  rw [← hDrev, hT2]
                  rw [joinSpace_cons_cons]
                  simp
      · have hfc : pyIsSpace c = false := by simpa using hc
        refine ⟨?_, ?_, ?_⟩
        · rw [collapseWsAux, if_neg hc]
          rw [show (c :: collapseWsAux false cs) = [c] ++ collapseWsAux false cs from rfl]
          rw [pySplit, if_neg hc]
          have h3 := ih3 [c] (by simp)
            (by intro d hd; simp only [List.mem_singleton] at hd; subst hd; exact hfc)
          rw [show ([c] : List Char).reverse = [c] from rfl] at h3
          exact h3
        · rw [collapseWsAux, if_neg hc]
          rw [show (c :: collapseWsAux false cs) = [c] ++ collapseWsAux false cs from rfl]
          rw [pySplit, if_neg hc]
          have h3 := ih3 [c] (by simp)
            (by intro d hd; simp only [List.mem_singleton] at hd; subst hd; exact hfc)
          rw [show ([c] : List Char).reverse = [c] from rfl] at h3
          exact h3
        · intro w hw hwf
          rw [collapseWsAux, if_neg hc]
          rw [show w ++ c :: collapseWsAux false cs
              = (w ++ [c]) ++ collapseWsAux false cs from by simp]
          have h3 := ih3 (w ++ [c]) (by simp)
            (by
              intro d hd
              rcases List.mem_append.1 hd with h | h
              · exact hwf d h
              · simp only [List.mem_singleton] at h
                subst h
                exact hfc)
          rw [h3]
          rw [pySplit, if_neg hc]
          rw [show (w ++ [c]).reverse = c :: w.reverse from by simp]

/-- C7: the normalizer returns the lowercase form of the stem with each
separator character replaced by a space, whitespace runs collapsed to single
spaces, and leading/trailing whitespace removed; in particular
`normalize_stem "My_Movie.2020[1080p]" = "my movie 2020 1080p"`. -/
theorem normalizer_spec :
    (∀ s : String, normalize_stem s = specNormalize s)
    ∧ normalize_stem "My_Movie.2020[1080p]" = "my movie 2020 1080p" := by
  constructor
  · intro s
    rw [normalize_stem_eq, specNormalize]
    rw [(collapse_eq_join_split (s.data.map prepChar).length (s.data.map prepChar) le_rfl).1]
  · decide

/-! ## The aeneas fallback's SRT stripper (subsynch.py, lines 58-71)

```python
patt_ts = re.compile(r"^\d{2}:\d{2}:\d{2},\d{3}\s+-->\s+\d{2}:\d{2}:\d{2},\d{3}$")
lines = []
for raw in f:
    line = raw.strip()
    if not line or line.isdigit() or patt_ts.match(line):
        continue
    line = re.sub(r"</?[^>]+>", "", line)
    line = re.sub(r"\x7b\\.*?\x7d", "", line)
    lines.append(line)
g.write("\n".join(lines) + "\n")
```
(the brace-override pattern is written with `\x7b`/`\x7d` escapes above). -/

def pyIsDigit (c : Char) : Bool := '0' ≤ c && c ≤ '9'

/-- Python `str.isdigit()` on the ASCII range: nonempty, all digits. -/
def pyIsDigitStr (l : List Char) : Bool := !l.isEmpty && l.all pyIsDigit

/-- Consume exactly `n` digits (`\d{n}`). -/
def parseDigits : Nat → List Char → Option (List Char)
  | 0, l => some l
  | _ + 1, [] => none
  | n + 1, c :: cs => if pyIsDigit c then parseDigits n cs else none

/-- Consume one literal character. -/
def parseChar (x : Char) : List Char → Option (List Char)
  | [] => none
  | c :: cs => if c = x then some cs else none

/-- Consume one or more whitespace characters (`\s+`; the following regex
token is never whitespace, so the maximal run is the match). -/
def parseWs1 : List Char → Option (List Char)
  | [] => none
  | c :: cs => if pyIsSpace c then some (cs.dropWhile pyIsSpace) else none

/-- Consume `\d{2}:\d{2}:\d{2},\d{3}`. -/
def parseTime (l : List Char) : Option (List Char) :=
  ((((((parseDigits 2 l).bind (parseChar ':')).bind (parseDigits 2)).bind
      (parseChar ':')).bind (parseDigits 2)).bind (parseChar ',')).bind
    (parseDigits 3)

/-- `patt_ts.match(line)` as a full-line test: the pattern is anchored at
both ends. -/
def isTimestampLine (l : List Char) : Bool :=
  match ((((((parseTime l).bind parseWs1).bind (parseChar '-')).bind
      (parseChar '-')).bind (parseChar '>')).bind parseWs1).bind parseTime with
  | some [] => true
  | _ => false

/-- `re.sub(r"</?[^>]+>", "", line)`: remove every span from a `<` over at
least one non-`>` character (the optional `/` is itself one) up to the next
`>`, scanning left to right.  Fuel-indexed (one input character is consumed
per step); `stripTags` supplies ample fuel. -/
def stripTagsF : Nat → List Char → List Char
  | 0, l => l
  | _ + 1, [] => []
  | fuel + 1, c :: cs =>
    if c = '<' then
      if (cs.takeWhile (fun d => !(d = '>'))) ≠ [] ∧
          (cs.takeWhile (fun d => !(d = '>'))).length < cs.length then
        stripTagsF fuel (cs.drop ((cs.takeWhile (fun d => !(d = '>'))).length + 1))
      else c :: stripTagsF fuel cs
    else c :: stripTagsF fuel cs

def stripTags (l : List Char) : List Char := stripTagsF l.length l

/-- Removal of ASS-style override blocks: a literal `\x7b` followed by a
backslash, lazily up to the first `\x7d`, scanning left to right. -/
def stripBracesF : Nat → List Char → List Char
  | 0, l => l
  | _ + 1, [] => []
  | fuel + 1, c :: cs =>
    if c = '\x7b' ∧ cs.head? = some '\\' then
      if (cs.takeWhile (fun d => !(d = '\x7d'))).length < cs.length then
        stripBracesF fuel (cs.drop ((cs.takeWhile (fun d => !(d = '\x7d'))).length + 1))
      else c :: stripBracesF fuel cs
    else c :: stripBracesF fuel cs

def stripBraces (l : List Char) : List Char := stripBracesF l.length l

/-- Both substitutions, in the loop's order. -/
def cleanLine (l : List Char) : List Char := stripBraces (stripTags l)

/-- The loop's keep test: blank, pure-index and timestamp lines are
skipped. -/
def keepLine (l : List Char) : Bool :=
  !l.isEmpty && !pyIsDigitStr l && !isTimestampLine l

/-- Python `"\n".join(lines)`. -/
def joinNl : List (List Char) → List Char
  | [] => []
  | [w] => w
  | w :: ws => w ++ '\n' :: joinNl ws

/-- The `for raw in f` loop: strip each raw line, drop blank/index/timestamp
lines, remove markup from the kept ones, in order. -/
def collectLines : List String → List (List Char)
  | [] => []
  | raw :: rest =>
    if keepLine (pyStrip raw.data) then
      cleanLine (pyStrip raw.data) :: collectLines rest
    else collectLines rest

/-- `srt_to_plaintext`: the scratch file's content, `"\n".join(lines) + "\n"`,
as a function of the subtitle file's lines. -/
def srt_to_plaintext (raws : List String) : String :=
  String.mk (joinNl (collectLines raws) ++ ['\n'])

/-- The spec's reading of the same loop: the kept lines are exactly the
stripped lines that are neither blank nor indices nor timestamp ranges, in
their original order, each with markup removed. -/
def spokenLines (raws : List String) : List (List Char) :=
  ((raws.map (fun r => pyStrip r.data)).filter keepLine).map cleanLine

/-- C9: the fallback's SRT stripping drops numeric index lines, timestamp
lines and markup, and the scratch plaintext is exactly the spoken lines, one
per line, in original order, newline-joined (with a final newline); a
concrete SRT with index lines, timestamp lines and `<i>` markup yields
exactly its spoken text. -/
theorem srt_stripping_spec :
    (∀ raws : List String,
        srt_to_plaintext raws = String.mk (joinNl (spokenLines raws) ++ ['\n']))
    ∧ srt_to_plaintext
        ["1", "00:00:01,000 --> 00:00:02,500", "<i>Hello there.</i>", "",
         "2", "00:00:04,000 --> 00:00:05,000", "General Kenobi!"]
      = "Hello there.\nGeneral Kenobi!\n" := by
  constructor
  · intro raws
    have h : ∀ rs : List String, collectLines rs = spokenLines rs := by
      intro rs
      induction rs with
      | nil => rfl
      | cons raw rest ih =>
        rw [collectLines, spokenLines, List.map_cons, List.filter_cons]
        by_cases hk : keepLine (pyStrip raw.data) = true
        · simp [hk, ih, spokenLines]
        · simp [hk, ih, spokenLines]
    rw [srt_to_plaintext, h]
  · decide

end SubSync
